import Mathlib

/-!
Verification development for the statement-to-ledger compiler
(`ib_flex2ledger.py`).  The Python program is shallowly embedded:

* XML attributes read via `.get` (which yields `None` when absent) become
  `Option` fields; attributes that the program immediately feeds to
  `float(...)` on every path are modelled as `Rat` fields directly.
* `datetime` values (produced by `datetime.fromisoformat`) are modelled as
  `Nat` through an order-preserving embedding; `datetime.min` becomes `0`.
* Printing to stdout is modelled as producing a `List Line` of structured
  output lines; stderr diagnostics produce nothing.
* An uncaught Python exception is modelled as an `Err` value carried next to
  the output that had already been printed when it was raised; every runner
  returns `List Line × Option Err`.
-/

namespace IbFlex

/-- The seven ledger accounts plus webservice credentials, mirroring the
`Config` dataclass of the source. -/
structure Config where
  stock_account : String
  cash_account : String
  fees_account : String
  dividends_account : String
  withholdings_account : String
  interest_income_account : String
  interest_expense_account : String
  api_token : String
  query_id : String
deriving DecidableEq, Repr

/-- One `Trade` element.  Display-only attributes keep their `Option`
nature (`.get` prints `None` when missing); `tradeDate` and `dateTime` are
the `datetime.fromisoformat` values (as `Nat`); the numeric attributes that
the program always passes through `float(...)` are modelled as `Rat`. -/
structure Trade where
  settleDateTarget : Option String
  tradeDate : Nat
  dateTime : Nat
  exchange : Option String
  tradeID : Option String
  ibOrderID : Option String
  assetCategory : Option String
  symbol : String
  currency : Option String
  quantity : Rat
  proceeds : Rat
  ibCommission : Rat
  ibCommissionCurrency : Option String
deriving DecidableEq, Repr

/-- One `CashTransaction` element (detail level).  `ty` is the `type`
attribute; `dateTime` is the parsed timestamp (absent attribute = `none`). -/
structure CashTx where
  conid : Option String
  dateTime : Option Nat
  ty : Option String
  reportDate : Option String
  description : Option String
  currency : Option String
  amount : Option Rat
  symbol : Option String
deriving DecidableEq, Repr

/-- A structured stdout line of the emitted ledger text. -/
inductive Line where
  | header (text : String)
  | comment (text : String)
  | posting (account : String) (commodity : String) (amount : Rat)
  | postingNoAmount (account : String)
  | blank
deriving DecidableEq, Repr

/-- Uncaught Python exceptions of the emission paths. -/
inductive Err where
  /-- `ValueError` from unpacking `symbol.split(".")` into two names. -/
  | malformedSymbol
  /-- `TypeError`/`ValueError`/`KeyError` from a missing required field
  (`float(None)`, `fromisoformat(None)`, a missing dict key). -/
  | malformedRecord
deriving DecidableEq, Repr

/-- How Python renders an optional attribute inside an f-string. -/
def showOpt : Option String → String
  | none => "None"
  | some s => s

/-- Double-quoted commodity symbol, as in the stock posting line. -/
def quoted (s : String) : String := "\x22" ++ s ++ "\x22"

/-- `transaction_header`: the `DATE=DATE * EXCHANGE` line plus the two
id comments. -/
def transaction_header (t : Trade) : List Line :=
  [ Line.header (showOpt t.settleDateTarget ++ "=" ++ toString t.tradeDate
      ++ " * " ++ showOpt t.exchange),
    Line.comment ("trade_id: " ++ showOpt t.tradeID),
    Line.comment ("order_id: " ++ showOpt t.ibOrderID) ]

/-- `fees_to_ledger`: the commission pair (cash leg, negated fees leg). -/
def fees_to_ledger (t : Trade) (c : Config) : List Line :=
  [ Line.posting c.cash_account (showOpt t.ibCommissionCurrency) t.ibCommission,
    Line.posting c.fees_account (showOpt t.ibCommissionCurrency) (-t.ibCommission) ]

/-- `stock_trade_to_ledger`. -/
def stock_trade_to_ledger (t : Trade) (c : Config) : List Line :=
  transaction_header t
    ++ [ Line.posting c.stock_account (quoted t.symbol) t.quantity,
         Line.posting c.cash_account (showOpt t.currency) t.proceeds ]
    ++ fees_to_ledger t c
    ++ [Line.blank]

/-- Python's `str.split(sep)` for a one-character separator, over the
character list (`"".split(".") = [""]`, `"a..b".split(".") = ["a","","b"]`).
Lean's `String.splitOn` has the same semantics but does not reduce in the
kernel, so the split is embedded over `String.data`. -/
def splitChars (sep : Char) : List Char → List (List Char)
  | [] => [[]]
  | x :: xs =>
    match splitChars sep xs with
    | [] => [[x]]
    | y :: ys => if x = sep then [] :: y :: ys else (x :: y) :: ys

/-- `symbol.split(".")` as a list of strings. -/
def splitSymbol (s : String) : List String :=
  (splitChars '.' s.data).map List.asString

/-- `fx_trade_to_ledger`: the symbol is unpacked from `split(".")` before
anything is printed; a shape other than two parts raises `ValueError`. -/
def fx_trade_to_ledger (t : Trade) (c : Config) : Except Err (List Line) :=
  match splitSymbol t.symbol with
  | [base_currency, quote_currency] =>
    Except.ok (transaction_header t
      ++ [ Line.posting c.cash_account base_currency t.quantity,
           Line.posting c.cash_account quote_currency t.proceeds ]
      ++ fees_to_ledger t c
      ++ [Line.blank])
  | _ => Except.error Err.malformedSymbol

/-! ### Association-list grouping

Python dicts preserve insertion order; both `group_cash_transactions` and
the classifier's `defaultdict` grouping are embedded as an insertion-ordered
association list built by `upsert`. -/

/-- Append `x` to the bucket of key `k`, or add a new `(k, [x])` entry at the
end — exactly the dict update of the source's `reduce_fn` /
`defaultdict(list)` append. -/
def upsert {κ α : Type} [DecidableEq κ] (k : κ) (x : α) :
    List (κ × List α) → List (κ × List α)
  | [] => [(k, [x])]
  | p :: rest =>
    if p.1 = k then (p.1, p.2 ++ [x]) :: rest else p :: upsert k x rest

/-- Fold a record list into the insertion-ordered grouping. -/
def groupByKey {κ α : Type} [DecidableEq κ] (key : α → κ) (l : List α) :
    List (κ × List α) :=
  l.foldl (fun acc x => upsert (key x) x acc) []

/-- The bucket stored under key `k` (first matching entry; `[]` if absent). -/
def bucketOf {κ α : Type} [DecidableEq κ] (k : κ) :
    List (κ × List α) → List α
  | [] => []
  | p :: rest => if p.1 = k then p.2 else bucketOf k rest

/-- `del grouped[k]` (with unique keys, dropping every entry of key `k`). -/
def removeKey {κ α : Type} [DecidableEq κ] (k : κ) :
    List (κ × List α) → List (κ × List α)
  | [] => []
  | p :: rest => if p.1 = k then removeKey k rest else p :: removeKey k rest

/-- Concatenation of all buckets of a grouping, in order. -/
def recordsIn {κ α : Type} : List (κ × List α) → List α
  | [] => []
  | p :: rest => p.2 ++ recordsIn rest

/-- Grouping key of `group_cash_transactions`: `(conid, dateTime)`. -/
abbrev CashKey := Option String × Option Nat

/-- Key extraction of the source's `reduce_fn`. -/
def keyCT (tx : CashTx) : CashKey := (tx.conid, tx.dateTime)

/-- `group_cash_transactions`: reduce into a dict keyed by
`(conid, dateTime)`, appending in input order. -/
def group_cash_transactions (l : List CashTx) : List (CashKey × List CashTx) :=
  groupByKey keyCT l

/-! ### Event classification -/

/-- Output items of `classify_cash_transactions_group`: the
`dividend_with_withholding` compound dict, or a `{"type": key,
"transaction": tx}` single dict. -/
inductive Classified where
  | divWithTax (dividend tax : CashTx)
  | single (ty : Option String) (tx : CashTx)
deriving DecidableEq, Repr

/-- The `Single` tail of the classifier: every bucket, in dict order,
flattened into `single` items. -/
def singlesOf : List (Option String × List CashTx) → List Classified
  | [] => []
  | p :: rest => p.2.map (Classified.single p.1) ++ singlesOf rest

/-- `classify_cash_transactions_group`: group by `type`; when the
`Dividends` and `Withholding Tax` buckets are both singletons, emit the
compound event, delete both buckets, and emit the rest as singles;
otherwise emit everything as singles.  (The `defaultdict` lookups of the
length test may insert empty buckets, but an empty bucket contributes no
output, so they are not modelled.) -/
def classify_cash_transactions_group (g : List CashTx) : List Classified :=
  let grouped := groupByKey (fun tx => tx.ty) g
  match bucketOf (some "Dividends") grouped,
        bucketOf (some "Withholding Tax") grouped with
  | [d], [t] =>
    Classified.divWithTax d t ::
      singlesOf (removeKey (some "Withholding Tax")
        (removeKey (some "Dividends") grouped))
  | _, _ => singlesOf grouped

/-- The cash records an output item carries. -/
def recordsOf : Classified → List CashTx
  | Classified.divWithTax d t => [d, t]
  | Classified.single _ tx => [tx]

/-- All records carried by a classified-event list, in order. -/
def recordsOfEvents : List Classified → List CashTx
  | [] => []
  | e :: rest => recordsOf e ++ recordsOfEvents rest

/-- Count of records of a group whose `type` attribute equals `s`. -/
def countType (s : String) (g : List CashTx) : Nat :=
  (g.filter (fun tx => decide (tx.ty = some s))).length

/-! ### Cash-event emission (the match arms of `parse_trades_from_flex`) -/

/-- Common shape of the `Dividends` / interest / `Other Fees` arms: header,
description comment, one negated posting to the role account, a placeholder
cash posting, blank line.  A missing `amount` raises inside the third print,
after two lines are already out. -/
def simpleCashTx (tx : CashTx) (payee account cashAccount : String) :
    List Line × Option Err :=
  let hdr := [ Line.header (showOpt tx.reportDate ++ " * " ++ payee),
               Line.comment (showOpt tx.description) ]
  match tx.amount with
  | none => (hdr, some Err.malformedRecord)
  | some a =>
    (hdr ++ [ Line.posting account (showOpt tx.currency) (-a),
              Line.postingNoAmount cashAccount, Line.blank ], none)

/-- The `dividend_with_withholding` arm. -/
def dividendWithWithholdingTx (d t : CashTx) (c : Config) :
    List Line × Option Err :=
  let hdr := [ Line.header (showOpt d.reportDate ++ " * " ++ showOpt d.symbol),
               Line.comment (showOpt d.description) ]
  match d.amount with
  | none => (hdr, some Err.malformedRecord)
  | some da =>
    match t.amount with
    | none =>
      (hdr ++ [Line.posting c.dividends_account (showOpt d.currency) (-da)],
        some Err.malformedRecord)
    | some ta =>
      (hdr ++ [ Line.posting c.dividends_account (showOpt d.currency) (-da),
                Line.posting c.withholdings_account (showOpt t.currency) (-ta),
                Line.postingNoAmount c.cash_account, Line.blank ], none)

/-- The `Deposits/Withdrawals` arm (amount not negated, placeholder goes to
the `UNKNOWN_ACCOUNT` sentinel). -/
def depositTx (tx : CashTx) (c : Config) : List Line × Option Err :=
  let hdr := [ Line.header (showOpt tx.reportDate ++ " * UNKNOWN"),
               Line.comment (showOpt tx.description) ]
  match tx.amount with
  | none => (hdr, some Err.malformedRecord)
  | some a =>
    (hdr ++ [ Line.posting c.cash_account (showOpt tx.currency) a,
              Line.postingNoAmount "UNKNOWN_ACCOUNT", Line.blank ], none)

/-- The default arm for unrecognized event types: `amount` is computed
before any print, the raw type label is echoed as a comment, and the
placeholder account is chosen by the sign of the amount. -/
def defaultTx (tx : CashTx) (c : Config) : List Line × Option Err :=
  match tx.amount with
  | none => ([], some Err.malformedRecord)
  | some a =>
    ([ Line.header (showOpt tx.reportDate ++ " * Interactive Brokers"),
       Line.comment (showOpt tx.description),
       Line.comment ("cash_transaction_type: " ++ showOpt tx.ty),
       Line.posting c.cash_account (showOpt tx.currency) a,
       if a < 0 then Line.postingNoAmount c.fees_account
         else Line.postingNoAmount "UNKNOWN_ACCOUNT",
       Line.blank ], none)

/-- Dispatch of one classified event, mirroring the `match transaction["type"]`
of the source.  A raw record whose own `type` is the literal string
`dividend_with_withholding` would hit the compound arm and raise `KeyError`
on `transaction["dividend"]` before printing anything. -/
def emitClassified (c : Config) (ignore_deposits_withdrawals : Bool) :
    Classified → List Line × Option Err
  | Classified.divWithTax d t => dividendWithWithholdingTx d t c
  | Classified.single k tx =>
    match k with
    | some "dividend_with_withholding" => ([], some Err.malformedRecord)
    | some "Dividends" =>
      simpleCashTx tx (showOpt tx.symbol) c.dividends_account c.cash_account
    | some "Broker Interest Received" =>
      simpleCashTx tx "Interactive Brokers" c.interest_income_account c.cash_account
    | some "Broker Interest Paid" =>
      simpleCashTx tx "Interactive Brokers" c.interest_expense_account c.cash_account
    | some "Other Fees" =>
      simpleCashTx tx "Interactive Brokers" c.fees_account c.cash_account
    | some "Deposits/Withdrawals" =>
      if ignore_deposits_withdrawals then ([], none) else depositTx tx c
    | _ => defaultTx tx c

/-- Emit a classified-event list in order; an exception stops the run,
keeping the lines already printed. -/
def emitClassifiedList (c : Config) (ign : Bool) :
    List Classified → List Line × Option Err
  | [] => ([], none)
  | e :: rest =>
    let r1 := emitClassified c ign e
    match r1.2 with
    | some er => (r1.1, some er)
    | none =>
      let r := emitClassifiedList c ign rest
      (r1.1 ++ r.1, r.2)

/-! ### Sorting (Python `sorted` is an ascending stable sort) -/

/-- Insert a trade after every earlier trade of `dateTime` key `≤` its own:
ascending and stable, like `sorted(trades, key=dateTime)`. -/
def insertTrade (t : Trade) : List Trade → List Trade
  | [] => [t]
  | u :: us =>
    if u.dateTime ≤ t.dateTime then u :: insertTrade t us else t :: u :: us

/-- Stable ascending sort of the trade list by `dateTime`. -/
def sortTrades (l : List Trade) : List Trade :=
  l.foldl (fun acc t => insertTrade t acc) []

/-- Order on group timestamps (the sort key `item[0][1]`).  A missing
timestamp sorts first; Python would raise `TypeError` comparing `None`
against a string, which no modelled claim exercises. -/
def optLE : Option Nat → Option Nat → Bool
  | none, _ => true
  | some _, none => false
  | some a, some b => decide (a ≤ b)

/-- Insert a cash-event group by its key timestamp, stably. -/
def insertGroup (g : CashKey × List CashTx) :
    List (CashKey × List CashTx) → List (CashKey × List CashTx)
  | [] => [g]
  | p :: ps =>
    if optLE p.1.2 g.1.2 then p :: insertGroup g ps else g :: p :: ps

/-- `sorted(cash_transactions.items(), key=item[0][1])`. -/
def sortCashGroups (l : List (CashKey × List CashTx)) :
    List (CashKey × List CashTx) :=
  l.foldl (fun acc g => insertGroup g acc) []

/-! ### The statement compiler loops -/

/-- Dispatch of one trade by `assetCategory`; unknown categories are logged
to stderr and emit nothing. -/
def emitTrade (t : Trade) (c : Config) : Except Err (List Line) :=
  match t.assetCategory with
  | some "CASH" => fx_trade_to_ledger t c
  | some "STK" => Except.ok (stock_trade_to_ledger t c)
  | _ => Except.ok []

/-- The trades loop: skip trades dated on/before the cutoff, emit the rest
in order; an uncaught exception aborts the whole loop (nothing further is
printed). -/
def goTrades (c : Config) (latest : Nat) : List Trade → List Line × Option Err
  | [] => ([], none)
  | t :: ts =>
    if t.tradeDate ≤ latest then goTrades c latest ts
    else
      match emitTrade t c with
      | Except.ok ls =>
        let r := goTrades c latest ts
        (ls ++ r.1, r.2)
      | Except.error e => ([], some e)

/-- Trades section of `parse_trades_from_flex`: sort then loop. -/
def runTrades (ts : List Trade) (latest : Nat) (c : Config) :
    List Line × Option Err :=
  goTrades c latest (sortTrades ts)

/-- The cash-transactions loop over sorted groups: the filter comparison
`fromisoformat(key[1]) <= latest` raises on a missing timestamp; retained
groups are classified and emitted in order, aborting on exception. -/
def goCash (c : Config) (latest : Nat) (ign : Bool) :
    List (CashKey × List CashTx) → List Line × Option Err
  | [] => ([], none)
  | (k, txs) :: rest =>
    match k.2 with
    | none => ([], some Err.malformedRecord)
    | some d =>
      if d ≤ latest then goCash c latest ign rest
      else
        let r1 := emitClassifiedList c ign (classify_cash_transactions_group txs)
        match r1.2 with
        | some e => (r1.1, some e)
        | none =>
          let r := goCash c latest ign rest
          (r1.1 ++ r.1, r.2)

/-- Cash section of `parse_trades_from_flex`: group, sort, loop. -/
def runCash (txs : List CashTx) (latest : Nat) (ign : Bool) (c : Config) :
    List Line × Option Err :=
  goCash c latest ign (sortCashGroups (group_cash_transactions txs))

/-- The statement as the compiler consumes it: its trade elements and its
detail-level cash-transaction elements. -/
structure Statement where
  trades : List Trade
  cashTransactions : List CashTx
deriving DecidableEq, Repr

/-- `parse_trades_from_flex` with the cutoff injected: under `new_only` the
source obtains `latest` from hledger, otherwise it uses `datetime.min` (= 0).
The trades section runs first; an exception there prevents the cash section
from running at all. -/
def parse_trades_from_flex (st : Statement) (ignore_dw : Bool) (latest : Nat)
    (c : Config) : List Line × Option Err :=
  let tr := runTrades st.trades latest c
  match tr.2 with
  | some e => (tr.1, some e)
  | none =>
    let ca := runCash st.cashTransactions latest ignore_dw c
    (tr.1 ++ ca.1, ca.2)

/-! ### Temporal filter -/

/-- One row of the `hledger aregister` CSV; `none` models a missing or
unparseable `date` field. -/
structure HledgerRow where
  date : Option Nat
deriving DecidableEq, Repr

/-- `get_latest_transaction_date_from_hledger`: the subprocess either raises
(`Except.error`) or yields parsed CSV rows; `transactions[-1]` on an empty
list raises `IndexError`, and a missing/bad date raises too — every
exception is caught and mapped to `datetime.min` (= 0). -/
def get_latest_transaction_date_from_hledger
    (result : Except Unit (List HledgerRow)) : Nat :=
  match result with
  | Except.error _ => 0
  | Except.ok rows =>
    match rows.getLast? with
    | none => 0
    | some row =>
      match row.date with
      | none => 0
      | some d => d

/-! ### Spec-side reference emitters (for the incremental-filtering claims) -/

/-- Modelled from the spec: the reference trades emitter that processes
every trade with no date filtering (the behaviour the spec ascribes to a
cutoff of the minimum possible date). -/
def emitAllTrades (c : Config) : List Trade → List Line × Option Err
  | [] => ([], none)
  | t :: ts =>
    match emitTrade t c with
    | Except.ok ls =>
      let r := emitAllTrades c ts
      (ls ++ r.1, r.2)
    | Except.error e => ([], some e)

/-- Modelled from the spec: the reference cash emitter that processes every
group with no date filtering. -/
def emitAllCash (c : Config) (ign : Bool) :
    List (CashKey × List CashTx) → List Line × Option Err
  | [] => ([], none)
  | (_, txs) :: rest =>
    let r1 := emitClassifiedList c ign (classify_cash_transactions_group txs)
    match r1.2 with
    | some e => (r1.1, some e)
    | none =>
      let r := emitAllCash c ign rest
      (r1.1 ++ r.1, r.2)

/-- Modelled from the spec: the reference pipeline that processes every
record of the statement with no date filtering ("treat absence as keep
everything") — trades section first, then the cash section. -/
def parse_all_records (st : Statement) (ign : Bool) (c : Config) :
    List Line × Option Err :=
  let tr := emitAllTrades c (sortTrades st.trades)
  match tr.2 with
  | some e => (tr.1, some e)
  | none =>
    let ca := emitAllCash c ign
      (sortCashGroups (group_cash_transactions st.cashTransactions))
    (tr.1 ++ ca.1, ca.2)

/-! ### Small observers used by the claims -/

/-- Is a line an explicit-amount posting line? -/
def isPosting : Line → Bool
  | Line.posting _ _ _ => true
  | _ => false

/-- Amount carried by a posting line (0 otherwise). -/
def postingAmount : Line → Rat
  | Line.posting _ _ a => a
  | _ => 0

/-- Sum of the amounts of a line list. -/
def sumAmounts (ls : List Line) : Rat :=
  ls.foldl (fun s l => s + postingAmount l) 0

/-! ### Concrete fixtures used by witnesses and counterexamples -/

/-- A concrete account mapping. -/
def cfg0 : Config :=
  ⟨"Assets:Stock", "Assets:Cash", "Expenses:Fees", "Revenue:Dividends",
   "Expenses:Withholding", "Revenue:Interest", "Expenses:Interest", "", ""⟩

/-- The stock trade of the spec's worked example
(`symbol ACME, quantity 10, proceeds -1000 USD, commission -1 USD`). -/
def acme : Trade :=
  ⟨some "2024-01-03", 5, 5, some "NYSE", some "t1", some "o1", some "STK",
   "ACME", some "USD", 10, -1000, -1, some "USD"⟩

/-- An FX trade whose symbol has no `.` separator. -/
def fxBad : Trade :=
  ⟨some "2024-01-02", 4, 4, some "IDEALFX", some "t0", some "o0", some "CASH",
   "EURUSD", some "USD", 100, -110, -1, some "USD"⟩

/-- A stock trade dated exactly the minimum possible date
(`fromisoformat("0001-01-01") = datetime.min`, modelled as 0). -/
def tradeMin : Trade :=
  ⟨some "0001-01-01", 0, 0, some "NYSE", some "t2", some "o2", some "STK",
   "ACME", some "USD", 10, -1000, -1, some "USD"⟩

/-- A dividend cash record. -/
def div1 : CashTx :=
  ⟨some "c1", some 7, some "Dividends", some "2024-02-01", some "dv",
   some "USD", some (-10), some "ACME"⟩

/-- The matching withholding-tax record of the same instrument and time. -/
def wht1 : CashTx :=
  ⟨some "c1", some 7, some "Withholding Tax", some "2024-02-01", some "wt",
   some "USD", some (-2), some "ACME"⟩

/-- A malformed cash record: both key fields missing. -/
def mtx1 : CashTx :=
  ⟨none, none, none, some "2024-02-01", some "m1", some "USD", some 1, none⟩

/-- A second, distinct malformed cash record with the same missing fields. -/
def mtx2 : CashTx :=
  ⟨none, none, none, some "2024-02-02", some "m2", some "USD", some 2, none⟩

/-- A cash record dated earlier than every fixture trade. -/
def cashEarly : CashTx :=
  ⟨some "c2", some 2, some "Other Fees", some "2024-01-01", some "early",
   some "USD", some (-4), some "ACME"⟩

/-- A statement fixture for the determinism witness. -/
def stEx : Statement := ⟨[acme], [div1, wht1]⟩

/-- A statement whose only cash event is dated before its only trade. -/
def stLate : Statement := ⟨[acme], [cashEarly]⟩

/-- A statement holding only the minimum-dated trade. -/
def stMin : Statement := ⟨[tradeMin], []⟩

/-! ## Lemmas about the association-list grouping -/

section GroupingLemmas

variable {κ α : Type} [DecidableEq κ]

theorem bucketOf_upsert (k k0 : κ) (x : α) (acc : List (κ × List α)) :
    bucketOf k (upsert k0 x acc) =
      if k = k0 then bucketOf k acc ++ [x] else bucketOf k acc := by
  induction acc with
  | nil =>
    by_cases hk : k = k0
    · simp [upsert, bucketOf, hk]
    · have hk2 : ¬ k0 = k := fun h => hk (Eq.symm h)
      simp [upsert, bucketOf, hk, hk2]
  | cons p rest ih =>
    simp only [upsert]
    by_cases h : p.1 = k0
    · simp only [if_pos h, bucketOf]
      by_cases hk : k = k0
      · subst hk; simp [h]
      · have h2 : p.1 ≠ k := fun hh => hk (by rw [← hh, h])
        simp [hk, h2]
    · simp only [if_neg h, bucketOf]
      by_cases hpk : p.1 = k
      · have : ¬ k = k0 := fun hh => h (by rw [hpk, hh])
        simp [hpk, this]
      · simp [hpk, ih]

theorem bucketOf_foldl (key : α → κ) (l : List α) (acc : List (κ × List α))
    (k : κ) :
    bucketOf k (l.foldl (fun acc x => upsert (key x) x acc) acc) =
      bucketOf k acc ++ l.filter (fun x => decide (key x = k)) := by
  induction l generalizing acc with
  | nil => simp
  | cons x xs ih =>
    simp only [List.foldl_cons, List.filter_cons]
    rw [ih, bucketOf_upsert]
    by_cases h : key x = k
    · simp [h, List.append_assoc]
    · have : ¬ k = key x := fun hh => h hh.symm
      simp [h, this]

theorem bucketOf_groupByKey (key : α → κ) (l : List α) (k : κ) :
    bucketOf k (groupByKey key l) = l.filter (fun x => decide (key x = k)) := by
  simpa [groupByKey, bucketOf] using bucketOf_foldl key l [] k

theorem keys_upsert (k : κ) (x : α) (acc : List (κ × List α)) :
    (upsert k x acc).map Prod.fst =
      if k ∈ acc.map Prod.fst then acc.map Prod.fst
        else acc.map Prod.fst ++ [k] := by
  induction acc with
  | nil => simp [upsert]
  | cons p rest ih =>
    simp only [upsert]
    by_cases h : p.1 = k
    · simp [h]
    · have : ¬ k = p.1 := fun hh => h hh.symm
      simp only [if_neg h, List.map_cons, ih, List.mem_cons]
      by_cases hm : k ∈ rest.map Prod.fst <;> simp [hm, this]

theorem nodup_keys_upsert (k : κ) (x : α) (acc : List (κ × List α))
    (h : (acc.map Prod.fst).Nodup) : ((upsert k x acc).map Prod.fst).Nodup := by
  rw [keys_upsert]
  by_cases hm : k ∈ acc.map Prod.fst
  · simpa [hm] using h
  · simp only [if_neg hm]
    simp [List.nodup_append, h, hm]

theorem nodup_keys_foldl (key : α → κ) (l : List α) (acc : List (κ × List α))
    (h : (acc.map Prod.fst).Nodup) :
    (((l.foldl (fun acc x => upsert (key x) x acc) acc)).map Prod.fst).Nodup := by
  induction l generalizing acc with
  | nil => simpa using h
  | cons x xs ih => exact ih _ (nodup_keys_upsert _ _ _ h)

theorem nodup_keys_groupByKey (key : α → κ) (l : List α) :
    ((groupByKey key l).map Prod.fst).Nodup :=
  nodup_keys_foldl key l [] (by simp)

theorem bucket_ne_nil_upsert (k : κ) (x : α) (acc : List (κ × List α))
    (h : ∀ p ∈ acc, p.2 ≠ []) : ∀ p ∈ upsert k x acc, p.2 ≠ [] := by
  induction acc with
  | nil => simp [upsert]
  | cons q rest ih =>
    intro p hp
    simp only [upsert] at hp
    by_cases hq : q.1 = k
    · simp only [if_pos hq, List.mem_cons] at hp
      rcases hp with h1 | h2
      · subst h1; simp
      · exact h p (List.mem_cons_of_mem _ h2)
    · simp only [if_neg hq, List.mem_cons] at hp
      rcases hp with h1 | h2
      · exact h p (h1 ▸ List.mem_cons_self _ _)
      · exact ih (fun r hr => h r (List.mem_cons_of_mem _ hr)) p h2

theorem bucket_ne_nil_foldl (key : α → κ) (l : List α)
    (acc : List (κ × List α)) (h : ∀ p ∈ acc, p.2 ≠ []) :
    ∀ p ∈ l.foldl (fun acc x => upsert (key x) x acc) acc, p.2 ≠ [] := by
  induction l generalizing acc with
  | nil => simpa using h
  | cons x xs ih => exact ih _ (bucket_ne_nil_upsert _ _ _ h)

theorem bucket_ne_nil_groupByKey (key : α → κ) (l : List α) :
    ∀ p ∈ groupByKey key l, p.2 ≠ [] :=
  bucket_ne_nil_foldl key l [] (by simp)

theorem bucketOf_eq_of_mem {G : List (κ × List α)} {p : κ × List α}
    (hnd : (G.map Prod.fst).Nodup) (hp : p ∈ G) : bucketOf p.1 G = p.2 := by
  induction G with
  | nil => cases hp
  | cons q rest ih =>
    rw [List.map_cons] at hnd
    rcases List.mem_cons.mp hp with h1 | h2
    · subst h1; simp [bucketOf]
    · have hq : q.1 ≠ p.1 := by
        intro hh
        have : q.1 ∈ rest.map Prod.fst := hh ▸ List.mem_map_of_mem Prod.fst h2
        exact (List.nodup_cons.mp hnd).1 this
      simp only [bucketOf, if_neg hq]
      exact ih (List.nodup_cons.mp hnd).2 h2

theorem entry_eq_of_keys_eq {G : List (κ × List α)} {p q : κ × List α}
    (hnd : (G.map Prod.fst).Nodup) (hp : p ∈ G) (hq : q ∈ G)
    (hk : p.1 = q.1) : p = q := by
  have h1 : bucketOf p.1 G = p.2 := bucketOf_eq_of_mem hnd hp
  have h2 : bucketOf q.1 G = q.2 := bucketOf_eq_of_mem hnd hq
  have : p.2 = q.2 := by rw [← h1, ← h2, hk]
  exact Prod.ext hk this

theorem recordsIn_upsert (k : κ) (x : α) (acc : List (κ × List α)) :
    (recordsIn (upsert k x acc)).Perm (recordsIn acc ++ [x]) := by
  induction acc with
  | nil => simp [upsert, recordsIn]
  | cons p rest ih =>
    simp only [upsert]
    by_cases h : p.1 = k
    · simp only [if_pos h, recordsIn]
      rw [List.append_assoc, List.append_assoc]
      exact List.Perm.append_left _ List.perm_append_comm
    · simp only [if_neg h, recordsIn]
      rw [List.append_assoc]
      exact List.Perm.append_left _ ih

theorem recordsIn_foldl (key : α → κ) (l : List α) (acc : List (κ × List α)) :
    (recordsIn (l.foldl (fun acc x => upsert (key x) x acc) acc)).Perm
      (recordsIn acc ++ l) := by
  induction l generalizing acc with
  | nil => simp
  | cons x xs ih =>
    simp only [List.foldl_cons]
    refine ((ih _).trans ?_)
    refine (List.Perm.append_right _ (recordsIn_upsert _ _ _)).trans ?_
    simp

theorem recordsIn_groupByKey (key : α → κ) (l : List α) :
    (recordsIn (groupByKey key l)).Perm l := by
  simpa [groupByKey, recordsIn] using recordsIn_foldl key l []

theorem removeKey_of_not_mem {k : κ} {G : List (κ × List α)}
    (h : k ∉ G.map Prod.fst) : removeKey k G = G := by
  induction G with
  | nil => rfl
  | cons p rest ih =>
    simp only [List.map_cons, List.mem_cons] at h
    push_neg at h
    have : p.1 ≠ k := fun hh => h.1 hh.symm
    simp [removeKey, this, ih h.2]

theorem mem_of_mem_removeKey {k : κ} {q : κ × List α} :
    ∀ {G : List (κ × List α)}, q ∈ removeKey k G → q ∈ G := by
  intro G
  induction G with
  | nil => intro h; simp [removeKey] at h
  | cons r rs ih =>
    intro hq
    by_cases hr : r.1 = k
    · simp only [removeKey, if_pos hr] at hq
      exact List.mem_cons_of_mem _ (ih hq)
    · simp only [removeKey, if_neg hr, List.mem_cons] at hq
      rcases hq with hq | hq
      · exact hq ▸ List.mem_cons_self _ _
      · exact List.mem_cons_of_mem _ (ih hq)

theorem recordsIn_perm_removeKey (k : κ) {G : List (κ × List α)}
    (hnd : (G.map Prod.fst).Nodup) :
    (recordsIn G).Perm (bucketOf k G ++ recordsIn (removeKey k G)) := by
  induction G with
  | nil => simp [recordsIn, bucketOf, removeKey]
  | cons p rest ih =>
    rw [List.map_cons] at hnd
    have hrest : (rest.map Prod.fst).Nodup := (List.nodup_cons.mp hnd).2
    by_cases h : p.1 = k
    · have hk : k ∉ rest.map Prod.fst := h ▸ (List.nodup_cons.mp hnd).1
      simp [recordsIn, bucketOf, removeKey, h, removeKey_of_not_mem hk]
    · simp only [recordsIn, bucketOf, removeKey, if_neg h]
      refine (List.Perm.append_left p.2 (ih hrest)).trans ?_
      rw [← List.append_assoc, ← List.append_assoc]
      exact List.Perm.append_right _ List.perm_append_comm

theorem bucketOf_removeKey {k k0 : κ} (h : k ≠ k0) (G : List (κ × List α)) :
    bucketOf k (removeKey k0 G) = bucketOf k G := by
  have h3 : ¬ k0 = k := fun hh => h (Eq.symm hh)
  induction G with
  | nil => rfl
  | cons p rest ih =>
    by_cases hp : p.1 = k0
    · have h2 : p.1 ≠ k := fun hh => h (by rw [← hh, hp])
      simp [removeKey, bucketOf, hp, h2, h3, h, ih]
    · by_cases hpk : p.1 = k <;>
        simp [removeKey, bucketOf, hp, hpk, h3, h, ih]

theorem nodup_keys_removeKey (k : κ) {G : List (κ × List α)}
    (hnd : (G.map Prod.fst).Nodup) :
    ((removeKey k G).map Prod.fst).Nodup := by
  induction G with
  | nil => simp [removeKey]
  | cons p rest ih =>
    rw [List.map_cons] at hnd
    have h1 := (List.nodup_cons.mp hnd).1
    have h2 := (List.nodup_cons.mp hnd).2
    by_cases hp : p.1 = k
    · simpa [removeKey, hp] using ih h2
    · simp only [removeKey, if_neg hp, List.map_cons, List.nodup_cons]
      refine ⟨fun hm => ?_, ih h2⟩
      rcases List.mem_map.mp hm with ⟨q, hq, hqk⟩
      exact h1 (hqk ▸ List.mem_map_of_mem Prod.fst (mem_of_mem_removeKey hq))

end GroupingLemmas

/-! ## Lemmas about the classifier -/

theorem recordsOfEvents_append (a b : List Classified) :
    recordsOfEvents (a ++ b) = recordsOfEvents a ++ recordsOfEvents b := by
  induction a with
  | nil => simp [recordsOfEvents]
  | cons e es ih => simp [recordsOfEvents, ih]

theorem recordsOfEvents_map_single (k : Option String) (txs : List CashTx) :
    recordsOfEvents (txs.map (Classified.single k)) = txs := by
  induction txs with
  | nil => rfl
  | cons tx rest ih => simp [recordsOfEvents, recordsOf, ih]

theorem recordsOfEvents_singlesOf (G : List (Option String × List CashTx)) :
    recordsOfEvents (singlesOf G) = recordsIn G := by
  induction G with
  | nil => rfl
  | cons p rest ih =>
    simp [singlesOf, recordsIn, recordsOfEvents_append,
      recordsOfEvents_map_single, ih]

theorem mem_singlesOf {e : Classified}
    {G : List (Option String × List CashTx)} (h : e ∈ singlesOf G) :
    ∃ k tx, e = Classified.single k tx := by
  induction G with
  | nil => simp [singlesOf] at h
  | cons p rest ih =>
    simp only [singlesOf, List.mem_append] at h
    rcases h with h | h
    · rcases List.mem_map.mp h with ⟨tx, _, htx⟩
      exact ⟨p.1, tx, htx.symm⟩
    · exact ih h

/-- The `Dividends` bucket of the classifier is the sublist of records of
that type, in order (and likewise for any type). -/
theorem bucketOf_ty (g : List CashTx) (k : Option String) :
    bucketOf k (groupByKey (fun tx => tx.ty) g) =
      g.filter (fun tx => decide (tx.ty = k)) :=
  bucketOf_groupByKey (fun tx => tx.ty) g k

theorem countType_eq (s : String) (g : List CashTx) :
    countType s g =
      (bucketOf (some s) (groupByKey (fun tx => tx.ty) g)).length := by
  rw [bucketOf_ty]; rfl

/-! ## Lemmas about the stable sorts -/

theorem mem_insertTrade {u t : Trade} {l : List Trade} :
    u ∈ insertTrade t l ↔ u = t ∨ u ∈ l := by
  induction l with
  | nil => simp [insertTrade]
  | cons v vs ih =>
    by_cases h : v.dateTime ≤ t.dateTime
    · simp only [insertTrade, if_pos h, List.mem_cons, ih]
      tauto
    · simp only [insertTrade, if_neg h, List.mem_cons]

theorem mem_sortTrades_foldl {u : Trade} (l acc : List Trade) :
    u ∈ l.foldl (fun acc t => insertTrade t acc) acc ↔ u ∈ acc ∨ u ∈ l := by
  induction l generalizing acc with
  | nil => simp
  | cons t ts ih =>
    simp only [List.foldl_cons, ih, mem_insertTrade, List.mem_cons]
    tauto

theorem mem_sortTrades {u : Trade} {l : List Trade} :
    u ∈ sortTrades l ↔ u ∈ l := by
  simp [sortTrades, mem_sortTrades_foldl]

theorem mem_insertGroup {u g : CashKey × List CashTx}
    {l : List (CashKey × List CashTx)} :
    u ∈ insertGroup g l ↔ u = g ∨ u ∈ l := by
  induction l with
  | nil => simp [insertGroup]
  | cons v vs ih =>
    by_cases h : optLE v.1.2 g.1.2
    · simp only [insertGroup, if_pos h, List.mem_cons, ih]
      tauto
    · simp only [insertGroup, if_neg h, List.mem_cons]

theorem mem_sortCashGroups_foldl {u : CashKey × List CashTx}
    (l acc : List (CashKey × List CashTx)) :
    u ∈ l.foldl (fun acc g => insertGroup g acc) acc ↔ u ∈ acc ∨ u ∈ l := by
  induction l generalizing acc with
  | nil => simp
  | cons g gs ih =>
    simp only [List.foldl_cons, ih, mem_insertGroup, List.mem_cons]
    tauto

theorem mem_sortCashGroups {u : CashKey × List CashTx}
    {l : List (CashKey × List CashTx)} :
    u ∈ sortCashGroups l ↔ u ∈ l := by
  simp [sortCashGroups, mem_sortCashGroups_foldl]

/-! ## Filtering lemmas for the compiler loops -/

theorem goTrades_eq_emitAll_filter (c : Config) (latest : Nat)
    (l : List Trade) :
    goTrades c latest l =
      emitAllTrades c (l.filter (fun t => decide (latest < t.tradeDate))) := by
  induction l with
  | nil => rfl
  | cons t ts ih =>
    by_cases h : t.tradeDate ≤ latest
    · have h2 : ¬ latest < t.tradeDate := not_lt.mpr h
      simp only [goTrades, if_pos h, List.filter_cons, h2, decide_False]
      exact ih
    · have h2 : latest < t.tradeDate := not_le.mp h
      simp only [goTrades, if_neg h, List.filter_cons, h2, decide_True,
        emitAllTrades]
      cases emitTrade t c with
      | ok ls => simp [ih]
      | error e => rfl

theorem goCash_eq_emitAll_filter (c : Config) (latest : Nat) (ign : Bool)
    (gs : List (CashKey × List CashTx))
    (h : ∀ p ∈ gs, p.1.2.isSome) :
    goCash c latest ign gs =
      emitAllCash c ign
        (gs.filter (fun p => decide (latest < p.1.2.getD 0))) := by
  induction gs with
  | nil => rfl
  | cons p rest ih =>
    obtain ⟨d, hd⟩ := Option.isSome_iff_exists.mp (h p (List.mem_cons_self _ _))
    have hrest : ∀ q ∈ rest, q.1.2.isSome :=
      fun q hq => h q (List.mem_cons_of_mem _ hq)
    obtain ⟨k, txs⟩ := p
    simp only at hd
    by_cases hle : d ≤ latest
    · have h2 : ¬ latest < d := not_lt.mpr hle
      simp only [goCash, hd, List.filter_cons]
      simp only [hd, Option.getD_some, h2, decide_False, if_pos hle]
      exact ih hrest
    · have h2 : latest < d := not_le.mp hle
      simp only [goCash, hd, List.filter_cons]
      simp only [hd, Option.getD_some, h2, decide_True, if_neg hle,
        emitAllCash]
      cases hr : (emitClassifiedList c ign
          (classify_cash_transactions_group txs)).2 with
      | some e => rfl
      | none => simp [ih hrest]

/-! ## Equations for the classifier match -/

theorem classify_eq_pair {g : List CashTx} {d t : CashTx}
    (hd : bucketOf (some "Dividends") (groupByKey (fun tx => tx.ty) g) = [d])
    (ht : bucketOf (some "Withholding Tax")
      (groupByKey (fun tx => tx.ty) g) = [t]) :
    classify_cash_transactions_group g =
      Classified.divWithTax d t ::
        singlesOf (removeKey (some "Withholding Tax")
          (removeKey (some "Dividends") (groupByKey (fun tx => tx.ty) g))) := by
  simp only [classify_cash_transactions_group]
  rw [hd, ht]

theorem classify_not_pair {g : List CashTx}
    (h : ∀ d t : CashTx,
      ¬ (bucketOf (some "Dividends") (groupByKey (fun tx => tx.ty) g) = [d]
         ∧ bucketOf (some "Withholding Tax")
             (groupByKey (fun tx => tx.ty) g) = [t])) :
    classify_cash_transactions_group g =
      singlesOf (groupByKey (fun tx => tx.ty) g) := by
  simp only [classify_cash_transactions_group]
  split
  · rename_i d t hd ht
    exact absurd ⟨hd, ht⟩ (h d t)
  · rfl

/-- Core permutation of the pair case: the compound event's two records
plus the remaining buckets are a permutation of the whole group. -/
theorem pair_case_perm {g : List CashTx} {d t : CashTx}
    (hd : bucketOf (some "Dividends") (groupByKey (fun tx => tx.ty) g) = [d])
    (ht : bucketOf (some "Withholding Tax")
      (groupByKey (fun tx => tx.ty) g) = [t]) :
    (d :: t :: recordsIn (removeKey (some "Withholding Tax")
      (removeKey (some "Dividends") (groupByKey (fun tx => tx.ty) g)))).Perm
      g := by
  have hnd := nodup_keys_groupByKey (fun tx => tx.ty) g
  have hperm := recordsIn_groupByKey (fun tx => tx.ty) g
  have h1 := recordsIn_perm_removeKey (some "Dividends") hnd
  have hnd2 := nodup_keys_removeKey (some "Dividends") hnd
  have h2 := recordsIn_perm_removeKey (some "Withholding Tax") hnd2
  have h3 : bucketOf (some "Withholding Tax")
      (removeKey (some "Dividends") (groupByKey (fun tx => tx.ty) g)) =
      bucketOf (some "Withholding Tax") (groupByKey (fun tx => tx.ty) g) :=
    bucketOf_removeKey (by decide) _
  have hmain : (recordsIn (groupByKey (fun tx => tx.ty) g)).Perm
      (d :: t :: recordsIn (removeKey (some "Withholding Tax")
        (removeKey (some "Dividends") (groupByKey (fun tx => tx.ty) g)))) := by
    refine h1.trans ?_
    rw [hd]
    refine List.Perm.cons d ?_
    refine h2.trans ?_
    rw [h3, ht]
    exact List.Perm.refl _
  exact hmain.symm.trans hperm

/-! ## Claim theorems -/

/-- C3: For every cash-event group, classification is exhaustive and
exclusive: the multiset of records carried by the classified events equals
the multiset of the group's records — no record missing, none duplicated. -/
theorem c3_classification_exhaustive_exclusive (g : List CashTx) :
    (↑(recordsOfEvents (classify_cash_transactions_group g)) :
      Multiset CashTx) = ↑g := by
  rw [Multiset.coe_eq_coe]
  by_cases hpair : ∃ d t : CashTx,
      bucketOf (some "Dividends") (groupByKey (fun tx => tx.ty) g) = [d]
      ∧ bucketOf (some "Withholding Tax")
          (groupByKey (fun tx => tx.ty) g) = [t]
  · obtain ⟨d, t, hd, ht⟩ := hpair
    rw [classify_eq_pair hd ht]
    simp only [recordsOfEvents, recordsOf, recordsOfEvents_singlesOf]
    exact pair_case_perm hd ht
  · push_neg at hpair
    rw [classify_not_pair (fun d t h => hpair d t h.1 h.2)]
    rw [recordsOfEvents_singlesOf]
    exact recordsIn_groupByKey (fun tx => tx.ty) g

/-- C4: The grouper is a partition: the records of all groups are exactly
the input records (as a multiset), each group's member list is the filter of
the input by its key (hence first-seen order), keys are pairwise distinct,
and two records lie in the same group iff they share `(conid, dateTime)`. -/
theorem c4_grouping_partition (l : List CashTx) :
    (↑(recordsIn (group_cash_transactions l)) : Multiset CashTx) = ↑l
    ∧ (∀ p ∈ group_cash_transactions l,
        p.2 = l.filter (fun x => decide (keyCT x = p.1)))
    ∧ ((group_cash_transactions l).map Prod.fst).Nodup
    ∧ (∀ p ∈ group_cash_transactions l, ∀ q ∈ group_cash_transactions l,
        ∀ x ∈ p.2, ∀ y ∈ q.2, (keyCT x = keyCT y ↔ p = q)) := by
  have hnd : ((group_cash_transactions l).map Prod.fst).Nodup :=
    nodup_keys_groupByKey keyCT l
  have hbucket : ∀ p ∈ group_cash_transactions l,
      p.2 = l.filter (fun x => decide (keyCT x = p.1)) := by
    intro p hp
    rw [← bucketOf_groupByKey keyCT l p.1]
    exact (bucketOf_eq_of_mem hnd hp).symm
  have hkey : ∀ p ∈ group_cash_transactions l, ∀ x ∈ p.2, keyCT x = p.1 := by
    intro p hp x hx
    rw [hbucket p hp] at hx
    exact of_decide_eq_true (List.mem_filter.mp hx).2
  refine ⟨Multiset.coe_eq_coe.mpr (recordsIn_groupByKey keyCT l),
    hbucket, hnd, ?_⟩
  intro p hp q hq x hx y hy
  constructor
  · intro hxy
    have h1 : p.1 = q.1 := by
      rw [← hkey p hp x hx, ← hkey q hq y hy, hxy]
    exact entry_eq_of_keys_eq hnd hp hq h1
  · intro hpq
    rw [hkey p hp x hx, hkey q hq y hy, hpq]

/-- C4 witness: the group-is-filter conjunct applied to a concrete input
and a concrete group of it. -/
theorem c4_witness :
    ([div1, wht1] : List CashTx)
      = [div1, wht1].filter
          (fun x => decide (keyCT x = ((some "c1", some 7) : CashKey))) :=
  (c4_grouping_partition [div1, wht1]).2.1
    (((some "c1", some 7) : CashKey), [div1, wht1]) (by decide)

theorem countType_one_iff (s : String) (g : List CashTx) :
    countType s g = 1 ↔
      ∃ x, bucketOf (some s) (groupByKey (fun tx => tx.ty) g) = [x] := by
  rw [countType_eq]
  exact List.length_eq_one

theorem mem_and_ty_of_bucket_singleton {s : String} {g : List CashTx}
    {d : CashTx}
    (hd : bucketOf (some s) (groupByKey (fun tx => tx.ty) g) = [d]) :
    d ∈ g ∧ d.ty = some s := by
  rw [bucketOf_ty] at hd
  have hmem : d ∈ g.filter (fun tx => decide (tx.ty = some s)) := by
    rw [hd]; exact List.mem_singleton_self d
  exact ⟨(List.mem_filter.mp hmem).1,
    of_decide_eq_true (List.mem_filter.mp hmem).2⟩

/-- C2: The classifier emits a `DividendWithWithholding` compound event iff
the group holds exactly one `Dividends` and exactly one `Withholding Tax`
record; the compound event consumes exactly those two records and every
other record becomes a `Single`; when the condition fails, every record of
the group is emitted as a `Single`. -/
theorem c2_dividend_pairing (g : List CashTx) :
    ((∃ d t rest, classify_cash_transactions_group g
        = Classified.divWithTax d t :: rest)
      ↔ (countType "Dividends" g = 1 ∧ countType "Withholding Tax" g = 1))
    ∧ (∀ d t rest, classify_cash_transactions_group g
          = Classified.divWithTax d t :: rest →
        d ∈ g ∧ d.ty = some "Dividends"
          ∧ t ∈ g ∧ t.ty = some "Withholding Tax"
          ∧ (∀ e ∈ rest, ∃ k tx, e = Classified.single k tx)
          ∧ d ::ₘ t ::ₘ (↑(recordsOfEvents rest) : Multiset CashTx) = ↑g)
    ∧ (¬ (countType "Dividends" g = 1 ∧ countType "Withholding Tax" g = 1) →
        (∀ e ∈ classify_cash_transactions_group g,
          ∃ k tx, e = Classified.single k tx)
        ∧ (↑(recordsOfEvents (classify_cash_transactions_group g)) :
            Multiset CashTx) = ↑g) := by
  by_cases hpair : ∃ d t : CashTx,
      bucketOf (some "Dividends") (groupByKey (fun tx => tx.ty) g) = [d]
      ∧ bucketOf (some "Withholding Tax")
          (groupByKey (fun tx => tx.ty) g) = [t]
  · obtain ⟨d0, t0, hd, ht⟩ := hpair
    have hcount : countType "Dividends" g = 1
        ∧ countType "Withholding Tax" g = 1 :=
      ⟨(countType_one_iff _ g).mpr ⟨d0, hd⟩,
       (countType_one_iff _ g).mpr ⟨t0, ht⟩⟩
    have heq := classify_eq_pair hd ht
    refine ⟨⟨fun _ => hcount, fun _ => ⟨d0, t0, _, heq⟩⟩, ?_, ?_⟩
    · intro d t rest hrest
      rw [heq] at hrest
      obtain ⟨h1, h2⟩ := List.cons_eq_cons.mp hrest
      have hd0 : d0 = d := by injection h1
      have ht0 : t0 = t := by injection h1
      subst hd0; subst ht0
      obtain ⟨hdg, hdty⟩ := mem_and_ty_of_bucket_singleton hd
      obtain ⟨htg, htty⟩ := mem_and_ty_of_bucket_singleton ht
      refine ⟨hdg, hdty, htg, htty, ?_, ?_⟩
      · intro e he
        rw [← h2] at he
        exact mem_singlesOf he
      · rw [← h2, recordsOfEvents_singlesOf]
        simpa using Multiset.coe_eq_coe.mpr (pair_case_perm hd ht)
    · intro hc
      exact absurd hcount hc
  · push_neg at hpair
    have heq := classify_not_pair (fun d t h => hpair d t h.1 h.2)
    have hnotc : ¬ (countType "Dividends" g = 1
        ∧ countType "Withholding Tax" g = 1) := by
      rintro ⟨h1, h2⟩
      obtain ⟨d, hd⟩ := (countType_one_iff _ g).mp h1
      obtain ⟨t, ht⟩ := (countType_one_iff _ g).mp h2
      exact hpair d t hd ht
    refine ⟨⟨?_, fun hc => absurd hc hnotc⟩, ?_, ?_⟩
    · rintro ⟨d, t, rest, hrest⟩
      have : Classified.divWithTax d t ∈ classify_cash_transactions_group g := by
        rw [hrest]; exact List.mem_cons_self _ _
      rw [heq] at this
      obtain ⟨k, tx, hk⟩ := mem_singlesOf this
      cases hk
    · intro d t rest hrest
      have : Classified.divWithTax d t ∈ classify_cash_transactions_group g := by
        rw [hrest]; exact List.mem_cons_self _ _
      rw [heq] at this
      obtain ⟨k, tx, hk⟩ := mem_singlesOf this
      cases hk
    · intro _
      constructor
      · intro e he
        rw [heq] at he
        exact mem_singlesOf he
      · rw [heq, recordsOfEvents_singlesOf]
        exact Multiset.coe_eq_coe.mpr (recordsIn_groupByKey (fun tx => tx.ty) g)

/-- C2 witness: a group with exactly one dividend and one withholding-tax
record does produce a compound event. -/
theorem c2_witness :
    ∃ d t rest, classify_cash_transactions_group [div1, wht1]
      = Classified.divWithTax d t :: rest :=
  (c2_dividend_pairing [div1, wht1]).1.mpr (by decide)

/-! ## Helper lemmas for the filtering and grouping claims -/

theorem mem_of_bucketOf_ne_nil {κ α : Type} [DecidableEq κ] {k : κ}
    {G : List (κ × List α)} (h : bucketOf k G ≠ []) :
    (k, bucketOf k G) ∈ G := by
  induction G with
  | nil => simp [bucketOf] at h
  | cons p rest ih =>
    by_cases hp : p.1 = k
    · simp only [bucketOf, if_pos hp]
      rw [← hp]
      exact List.mem_cons_self p rest
    · simp only [bucketOf, if_neg hp] at h ⊢
      exact List.mem_cons_of_mem _ (ih h)

theorem group_member_key {l : List CashTx} {p : CashKey × List CashTx}
    (hp : p ∈ group_cash_transactions l) :
    ∃ x ∈ l, keyCT x = p.1 := by
  have hnd : ((group_cash_transactions l).map Prod.fst).Nodup :=
    nodup_keys_groupByKey keyCT l
  have hfil : bucketOf p.1 (group_cash_transactions l) = p.2 :=
    bucketOf_eq_of_mem hnd hp
  have hne : p.2 ≠ [] := bucket_ne_nil_groupByKey keyCT l p hp
  have hb : bucketOf p.1 (group_cash_transactions l)
      = l.filter (fun x => decide (keyCT x = p.1)) :=
    bucketOf_groupByKey keyCT l p.1
  rw [← hfil, hb] at hne
  rcases hx : l.filter (fun x => decide (keyCT x = p.1)) with _ | ⟨x, xs⟩
  · exact absurd hx hne
  · have hmem : x ∈ l.filter (fun x => decide (keyCT x = p.1)) := by
      rw [hx]; exact List.mem_cons_self _ _
    exact ⟨x, (List.mem_filter.mp hmem).1,
      of_decide_eq_true (List.mem_filter.mp hmem).2⟩

theorem group_keys_isSome {l : List CashTx}
    (h : ∀ tx ∈ l, tx.dateTime.isSome) :
    ∀ p ∈ sortCashGroups (group_cash_transactions l), p.1.2.isSome := by
  intro p hp
  obtain ⟨x, hx, hkey⟩ := group_member_key (mem_sortCashGroups.mp hp)
  have : p.1.2 = x.dateTime := by rw [← hkey]; rfl
  rw [this]
  exact h x hx

theorem group_keys_some_pos {l : List CashTx}
    (h : ∀ tx ∈ l, ∃ d, tx.dateTime = some d ∧ 0 < d) :
    ∀ p ∈ sortCashGroups (group_cash_transactions l),
      ∃ d, p.1.2 = some d ∧ 0 < d := by
  intro p hp
  obtain ⟨x, hx, hkey⟩ := group_member_key (mem_sortCashGroups.mp hp)
  have hx2 : p.1.2 = x.dateTime := by rw [← hkey]; rfl
  obtain ⟨d, hd, hdpos⟩ := h x hx
  exact ⟨d, by rw [hx2, hd], hdpos⟩

theorem runTrades_eq_filter (ts : List Trade) (latest : Nat) (c : Config) :
    runTrades ts latest c =
      emitAllTrades c ((sortTrades ts).filter
        (fun t => decide (latest < t.tradeDate))) :=
  goTrades_eq_emitAll_filter c latest (sortTrades ts)

theorem runCash_eq_filter (l : List CashTx) (latest : Nat) (ign : Bool)
    (c : Config) (h : ∀ tx ∈ l, tx.dateTime.isSome) :
    runCash l latest ign c =
      emitAllCash c ign
        ((sortCashGroups (group_cash_transactions l)).filter
          (fun p => decide (latest < p.1.2.getD 0))) :=
  goCash_eq_emitAll_filter c latest ign _ (group_keys_isSome h)

theorem runTrades_min_cutoff (ts : List Trade) (c : Config)
    (h : ∀ t ∈ ts, 0 < t.tradeDate) :
    runTrades ts 0 c = emitAllTrades c (sortTrades ts) := by
  rw [runTrades_eq_filter]
  congr 1
  apply List.filter_eq_self.mpr
  intro t ht
  exact decide_eq_true (h t (mem_sortTrades.mp ht))

theorem runCash_min_cutoff (l : List CashTx) (ign : Bool) (c : Config)
    (h : ∀ tx ∈ l, ∃ d, tx.dateTime = some d ∧ 0 < d) :
    runCash l 0 ign c =
      emitAllCash c ign (sortCashGroups (group_cash_transactions l)) := by
  have hsome : ∀ tx ∈ l, tx.dateTime.isSome := by
    intro tx htx
    obtain ⟨d, hd, _⟩ := h tx htx
    rw [hd]; rfl
  rw [runCash_eq_filter l 0 ign c hsome]
  congr 1
  apply List.filter_eq_self.mpr
  intro p hp
  obtain ⟨d, hd, hdpos⟩ := group_keys_some_pos h p hp
  rw [hd]
  exact decide_eq_true (by simpa using hdpos)

/-! ## Remaining claim theorems -/

/-- C1 (amended): a retained FX trade whose symbol does not split on `.`
into exactly two parts makes the emitter signal a MalformedSymbol error
(an uncaught `ValueError`) before printing any line of that record, and the
error aborts the rest of the run: no further record is emitted. -/
theorem c1_fx_malformed_symbol_aborts_run (t : Trade) (ts : List Trade)
    (cutoff : Nat) (c : Config)
    (hdate : cutoff < t.tradeDate)
    (hcat : t.assetCategory = some "CASH")
    (hsym : (splitSymbol t.symbol).length ≠ 2) :
    goTrades c cutoff (t :: ts) = ([], some Err.malformedSymbol) := by
  have hnle : ¬ t.tradeDate ≤ cutoff := not_le.mpr hdate
  have hfx : fx_trade_to_ledger t c = Except.error Err.malformedSymbol := by
    unfold fx_trade_to_ledger
    rcases hs : splitSymbol t.symbol with _ | ⟨a, _ | ⟨b, _ | ⟨x, r⟩⟩⟩
    · rfl
    · rfl
    · rw [hs] at hsym; simp at hsym
    · rfl
  simp [goTrades, hnle, emitTrade, hcat, hfx]

/-- C1 witness: the amended theorem applied to the concrete malformed FX
trade. -/
theorem c1_witness :
    goTrades cfg0 0 [fxBad] = ([], some Err.malformedSymbol) :=
  c1_fx_malformed_symbol_aborts_run fxBad [] 0 cfg0 (by decide) (by decide)
    (by decide)

/-- C1 counterexample to the claim as stated: a malformed FX trade followed
by a valid stock trade aborts the whole run — the stock trade, which alone
would emit a transaction, produces nothing. -/
theorem c1_counterexample :
    parse_trades_from_flex ⟨[fxBad, acme], []⟩ false 0 cfg0
      = ([], some Err.malformedSymbol)
    ∧ (parse_trades_from_flex ⟨[acme], []⟩ false 0 cfg0).1 ≠ [] := by
  constructor <;> decide

/-- C5: the spec's stock-trade example: exactly four posting lines — stock
account `10 "ACME"`, cash account `USD -1000`, cash account `USD -1`, fees
account `USD 1` — and the commission pair sums to zero, for any account
mapping. -/
theorem c5_stock_trade_example (c : Config) :
    (stock_trade_to_ledger acme c).filter isPosting
      = [ Line.posting c.stock_account (quoted "ACME") 10,
          Line.posting c.cash_account "USD" (-1000),
          Line.posting c.cash_account "USD" (-1),
          Line.posting c.fees_account "USD" 1 ]
    ∧ ((stock_trade_to_ledger acme c).filter isPosting).length = 4
    ∧ sumAmounts (((stock_trade_to_ledger acme c).filter isPosting).drop 2)
        = 0 := by
  have hfil : (stock_trade_to_ledger acme c).filter isPosting
      = [ Line.posting c.stock_account (quoted "ACME") 10,
          Line.posting c.cash_account "USD" (-1000),
          Line.posting c.cash_account "USD" (-1),
          Line.posting c.fees_account "USD" 1 ] := by
    simp [stock_trade_to_ledger, transaction_header, fees_to_ledger, acme,
      isPosting, showOpt]
  refine ⟨hfil, by simp [hfil], ?_⟩
  rw [hfil]
  simp [sumAmounts, postingAmount]

/-- C6 (amended): filtering drops exactly the records dated on/before the
cutoff — the run equals the unfiltered reference run on the retained
(sorted) records — and a cutoff of the minimum date reproduces the fully
unfiltered run provided no record carries the minimum date itself (a record
dated exactly `datetime.min` is still dropped, because the comparison is
`<=`). -/
theorem c6_incremental_filtering (st : Statement) (ign : Bool) (latest : Nat)
    (c : Config) :
    (runTrades st.trades latest c
      = emitAllTrades c ((sortTrades st.trades).filter
          (fun t => decide (latest < t.tradeDate))))
    ∧ ((∀ tx ∈ st.cashTransactions, tx.dateTime.isSome) →
        runCash st.cashTransactions latest ign c
          = emitAllCash c ign
              ((sortCashGroups
                  (group_cash_transactions st.cashTransactions)).filter
                (fun p => decide (latest < p.1.2.getD 0))))
    ∧ ((∀ t ∈ st.trades, 0 < t.tradeDate) →
        runTrades st.trades 0 c = emitAllTrades c (sortTrades st.trades))
    ∧ ((∀ tx ∈ st.cashTransactions, ∃ d, tx.dateTime = some d ∧ 0 < d) →
        runCash st.cashTransactions 0 ign c
          = emitAllCash c ign
              (sortCashGroups (group_cash_transactions st.cashTransactions))) :=
  ⟨runTrades_eq_filter st.trades latest c,
   fun h => runCash_eq_filter st.cashTransactions latest ign c h,
   fun h => runTrades_min_cutoff st.trades c h,
   fun h => runCash_min_cutoff st.cashTransactions ign c h⟩

/-- C6 witness: the amended theorem applied to a concrete statement. -/
theorem c6_witness :
    runTrades [acme] 0 cfg0 = emitAllTrades cfg0 (sortTrades [acme])
    ∧ runCash [div1, wht1] 0 false cfg0
      = emitAllCash cfg0 false
          (sortCashGroups (group_cash_transactions [div1, wht1])) :=
  ⟨(c6_incremental_filtering ⟨[acme], [div1, wht1]⟩ false 0 cfg0).2.2.1
      (by decide),
   (c6_incremental_filtering ⟨[acme], [div1, wht1]⟩ false 0 cfg0).2.2.2
      (by decide)⟩

/-- C6 counterexample to the claim as stated: with the minimum cutoff, a
statement holding one stock trade dated exactly the minimum possible date
emits nothing, although that trade alone would emit a transaction. -/
theorem c6_counterexample :
    parse_trades_from_flex stMin false 0 cfg0 = ([], none)
    ∧ stock_trade_to_ledger tradeMin cfg0 ≠ [] := by
  constructor <;> decide

/-- C7 (amended): when the hledger query raises or returns no rows, the
temporal filter returns the minimum possible date, and with that cutoff the
whole pipeline degrades — without failing — to the unfiltered reference
run, i.e. it processes all records except any dated exactly the minimum
possible date (the `<=` comparison still drops those). -/
theorem c7_latest_date_fallback (r : Except Unit (List HledgerRow))
    (h : r = Except.error () ∨ r = Except.ok []) :
    get_latest_transaction_date_from_hledger r = 0
    ∧ ∀ (st : Statement) (ign : Bool) (c : Config),
        (∀ t ∈ st.trades, 0 < t.tradeDate) →
        (∀ tx ∈ st.cashTransactions, ∃ d, tx.dateTime = some d ∧ 0 < d) →
        parse_trades_from_flex st ign
            (get_latest_transaction_date_from_hledger r) c
          = parse_all_records st ign c := by
  have h0 : get_latest_transaction_date_from_hledger r = 0 := by
    rcases h with h | h <;> subst h <;> rfl
  refine ⟨h0, ?_⟩
  intro st ign c ht hc
  rw [h0]
  simp only [parse_trades_from_flex, parse_all_records,
    runTrades_min_cutoff st.trades c ht,
    runCash_min_cutoff st.cashTransactions ign c hc]

/-- C7 witness: the fallback applied to a failing query and a concrete
statement. -/
theorem c7_witness :
    get_latest_transaction_date_from_hledger (Except.error ()) = 0
    ∧ parse_trades_from_flex stEx false
        (get_latest_transaction_date_from_hledger (Except.error ())) cfg0
      = parse_all_records stEx false cfg0 :=
  ⟨(c7_latest_date_fallback (Except.error ()) (Or.inl rfl)).1,
   (c7_latest_date_fallback (Except.error ()) (Or.inl rfl)).2 stEx false cfg0
     (by decide)
     (by
       intro tx htx
       have h2 : tx = div1 ∨ tx = wht1 := by
         have hmem : tx ∈ [div1, wht1] := htx
         simpa using hmem
       rcases h2 with rfl | rfl
       · exact ⟨7, rfl, by decide⟩
       · exact ⟨7, rfl, by decide⟩)⟩

/-- C7 counterexample to the claim as stated: a failing query does yield
the minimum cutoff, but the pipeline then drops a trade dated exactly the
minimum possible date — it does not process all records. -/
theorem c7_counterexample :
    get_latest_transaction_date_from_hledger (Except.error ()) = 0
    ∧ parse_trades_from_flex stMin false
        (get_latest_transaction_date_from_hledger (Except.error ())) cfg0
      = ([], none)
    ∧ stock_trade_to_ledger tradeMin cfg0 ≠ [] := by
  refine ⟨rfl, ?_, ?_⟩ <;> decide

/-- C8 (amended): the grouper is total and never fails on malformed
records; a malformed record is grouped under its (partially missing) key
like any other, and it produces a group of one containing exactly it when
it is the only input record with its key. -/
theorem c8_malformed_record_grouping (l : List CashTx) (m : CashTx)
    (_hmal : m.conid = none ∨ m.dateTime = none)
    (huniq : l.filter (fun x => decide (keyCT x = keyCT m)) = [m]) :
    (keyCT m, [m]) ∈ group_cash_transactions l := by
  have hb : bucketOf (keyCT m) (group_cash_transactions l)
      = l.filter (fun x => decide (keyCT x = keyCT m)) :=
    bucketOf_groupByKey keyCT l (keyCT m)
  rw [huniq] at hb
  have hne : bucketOf (keyCT m) (group_cash_transactions l) ≠ [] := by
    rw [hb]; simp
  have hmem := mem_of_bucketOf_ne_nil hne
  rwa [hb] at hmem

/-- C8 witness: a malformed record whose key is unique in the input does
land in a group of one. -/
theorem c8_witness :
    ((none, none), [mtx1]) ∈ group_cash_transactions [div1, mtx1] :=
  c8_malformed_record_grouping [div1, mtx1] mtx1 (Or.inl rfl) (by decide)

/-- C8 counterexample to the claim as stated: two malformed records with
the same missing key fields end up together in one group of two, not in
groups of one. -/
theorem c8_counterexample :
    mtx1.conid = none ∧ mtx1.dateTime = none
    ∧ mtx2.conid = none ∧ mtx2.dateTime = none
    ∧ group_cash_transactions [mtx1, mtx2] = [((none, none), [mtx1, mtx2])]
    ∧ ∀ p ∈ group_cash_transactions [mtx1, mtx2],
        mtx1 ∈ p.2 → p.2.length = 2 := by
  refine ⟨rfl, rfl, rfl, rfl, by decide, by decide⟩

/-- C9: the compiler is deterministic — two runs on identical inputs (same
records, same flags, same cutoff, same mapping) produce identical output. -/
theorem c9_deterministic (st1 st2 : Statement) (ign1 ign2 : Bool)
    (latest1 latest2 : Nat) (c1 c2 : Config)
    (hst : st1 = st2) (hign : ign1 = ign2) (hlatest : latest1 = latest2)
    (hc : c1 = c2) :
    parse_trades_from_flex st1 ign1 latest1 c1
      = parse_trades_from_flex st2 ign2 latest2 c2 := by
  subst hst; subst hign; subst hlatest; subst hc; rfl

/-- C9 witness: two runs on a concrete statement coincide. -/
theorem c9_witness :
    parse_trades_from_flex stEx false 0 cfg0
      = parse_trades_from_flex stEx false 0 cfg0 :=
  c9_deterministic stEx stEx false false 0 0 cfg0 cfg0 rfl rfl rfl rfl

/-- C10: unconditionally, for every statement, the output is the
trades-section output followed by the cash-section output (empty when the
trades section aborted) — every trade transaction precedes every
cash-event transaction, even when a cash event is dated earlier than a
trade; output is never interleaved by date across the two categories. -/
theorem c10_trades_before_cash (st : Statement) (ign : Bool) (latest : Nat)
    (c : Config) :
    (parse_trades_from_flex st ign latest c).1
      = (runTrades st.trades latest c).1
        ++ (match (runTrades st.trades latest c).2 with
            | none => (runCash st.cashTransactions latest ign c).1
            | some _ => []) := by
  cases h : (runTrades st.trades latest c).2 with
  | none => simp [parse_trades_from_flex, h]
  | some e => simp [parse_trades_from_flex, h]

/-- C10 witness: the theorem applied to a concrete statement whose cash
event (date 2) precedes its trade (date 5) — the trade transaction is
still emitted first. -/
theorem c10_witness :
    (parse_trades_from_flex stLate false 0 cfg0).1
      = (runTrades stLate.trades 0 cfg0).1
        ++ (match (runTrades stLate.trades 0 cfg0).2 with
            | none => (runCash stLate.cashTransactions 0 false cfg0).1
            | some _ => []) :=
  c10_trades_before_cash stLate false 0 cfg0

end IbFlex
